import Mathlib

/-!
# Memory-Allocation-Simulator: the pool of `pool.c`

A shallow embedding of `src/Memory Allocation Simulator C/pool.c`.

* The singly linked list hanging off `p->root` is a `List node`; `NULL` is `[]`.
* A `char *` handed to or returned by the pool is an `Option Int`: `none` is `NULL`
  and `some k` is `&p->array[k]` (the base pointer `p->array` is a live, non-null
  `malloc` result, so `&p->array[k] == &p->array[j]` exactly when `k = j`).
* `int` is `Int`.  On a pool that satisfies the record invariant every difference
  and every sum the code evaluates lies between `0` and `p->maxsize`, so no
  operation leaves the range of `int`.
* `assert` failures abort the program: the functions that assert on an argument
  return `Option`, with `none` for the abort.
* The buffer `p->array` is a map from offsets to bytes; `malloc` leaves it with
  arbitrary content.  `memcpy` copies byte by byte in ascending order, which is what
  the library call does on ranges that do not overlap.

* What `printf` writes to standard output is a `String`; `%d` is `toString` on `Int`.
* `pool_destroy` releases the pool when it succeeds: it returns the pool that is
  left, if any, with its flag.

Definitions come first (the code, then the vocabulary of the specification), then
the lemmas, then one theorem per claim.
-/

namespace PoolSim

/-- One byte of the buffer (`char`). -/
abbrev char := Fin 256

/-- The record `struct node` (lines 7-11); `next` is the tail of the list. -/
structure node where
  start : Int
  «end» : Int
deriving DecidableEq

/-- The record `struct pool` (lines 13-17). -/
structure pool where
  root : List node
  maxsize : Int
  array : Int → char

/-- Lines 19-26.  The buffer comes from `malloc` and holds arbitrary bytes `mem`. -/
def pool_create (size : Int) (mem : Int → char) : Option pool :=
  if size > 0 then some { root := [], maxsize := size, array := mem } else none

/-- Lines 39-45. -/
def new_node (start size : Int) : node :=
  { start := start, «end» := start + size }

/-- Lines 74-93 of `pool_alloc`: the loop over `curnode->next` followed by the
check of the space after the last node.  The list argument is the list at
`curnode->next`, `start` is `curnode->end`.  The result is the new list at
`curnode->next` and the offset of the new node. -/
def alloc_scan (maxsize size : Int) (start : Int) : List node → Option (List node × Int)
  | [] =>
    if maxsize - start ≥ size then some ([new_node start size], start) else none
  | nxt :: rest =>
    if nxt.start - start ≥ size then
      some (new_node start size :: nxt :: rest, start)
    else
      match alloc_scan maxsize size nxt.«end» rest with
      | some (l, a) => some (nxt :: l, a)
      | none => none

/-- The body of `pool_alloc` after its assertions (lines 50-93). -/
def alloc_body (p : pool) (size : Int) : pool × Option Int :=
  match p.root with
  | [] =>
    if p.maxsize ≥ size then ({ p with root := [new_node 0 size] }, some 0)
    else (p, none)
  | curnode :: rest =>
    if curnode.start ≥ size then
      ({ p with root := new_node 0 size :: curnode :: rest }, some 0)
    else
      match alloc_scan p.maxsize size curnode.«end» rest with
      | some (l, a) => ({ p with root := curnode :: l }, some a)
      | none => (p, none)

/-- Lines 47-94.  `none` is the failed `assert(size > 0)`; otherwise the pool
after the call and the returned pointer. -/
def pool_alloc (p : pool) (size : Int) : Option (pool × Option Int) :=
  if size > 0 then some (alloc_body p size) else none

/-- Lines 110-118 of `pool_free`: the loop over `curnode->next`.  The list
argument is the list at `curnode->next`; the result is the new list there. -/
def free_scan (addr : Int) : List node → Option (List node)
  | [] => none
  | nxt :: rest =>
    if nxt.start = addr then some rest
    else
      match free_scan addr rest with
      | some l => some (nxt :: l)
      | none => none

/-- Lines 96-120: the pool after the call and the returned flag. -/
def pool_free (p : pool) (addr : Option Int) : pool × Bool :=
  match addr, p.root with
  | none, _ => (p, false)
  | some _, [] => (p, false)
  | some a, curnode :: rest =>
    if curnode.start = a then ({ p with root := rest }, true)
    else
      match free_scan a rest with
      | some l => ({ p with root := curnode :: l }, true)
      | none => (p, false)

/-- The library call `memcpy(dst, src, n)` on the buffer, as a byte-by-byte copy
in ascending order: byte `k` of the source goes to byte `k` of the destination
after the bytes below `k`. -/
def memcpy (mem : Int → char) (dst src : Int) : Nat → (Int → char)
  | 0 => mem
  | k + 1 =>
    let m := memcpy mem dst src k
    Function.update m (dst + k) (m (src + k))

/-- The three tests of lines 132-138 at `curnode` with `curnode->next` the head
of `rest`. -/
def in_place (maxsize size : Int) (curnode : node) (rest : List node) : Bool :=
  decide (size ≤ curnode.«end» - curnode.start) ||
  (match rest with
   | nxt :: _ => decide (size ≤ nxt.start - curnode.start)
   | [] => false) ||
  (match rest with
   | [] => decide (size ≤ maxsize - curnode.start)
   | _ :: _ => false)

/-- Lines 129-151 of `pool_realloc`: the body of the loop at the node `curnode`
whose address equals `addr`.  `pre` holds the nodes before `curnode`, `rest` the
nodes after it.  The source of the copy is `addr`, the address of `curnode`; its
length `old_size` is positive on a pool that satisfies the invariant. -/
def realloc_at (p : pool) (addr : Option Int) (size : Int) (pre : List node)
    (curnode : node) (rest : List node) : Option (pool × Option Int) :=
  let old_size := curnode.«end» - curnode.start
  if in_place p.maxsize size curnode rest then
    some ({ p with root := pre ++ { curnode with «end» := curnode.start + size } :: rest },
          some curnode.start)
  else
    match pool_alloc p size with
    | none => none
    | some (p1, none) => some (p1, none)
    | some (p1, some new_addr) =>
      let p2 := (pool_free p1 addr).1
      some ({ p2 with array := memcpy p2.array new_addr curnode.start old_size.toNat },
            some new_addr)

/-- Lines 127-155 of `pool_realloc`: the loop over the list.  `pre` holds the
nodes already passed, the list argument starts at `curnode`. -/
def realloc_scan (p : pool) (addr : Option Int) (size : Int) (pre : List node) :
    List node → Option (pool × Option Int)
  | [] => some (p, none)
  | curnode :: rest =>
    if some curnode.start = addr then realloc_at p addr size pre curnode rest
    else realloc_scan p addr size (pre ++ [curnode]) rest

/-- Lines 123-156.  `none` is the failed `assert(size > 0)`. -/
def pool_realloc (p : pool) (addr : Option Int) (size : Int) : Option (pool × Option Int) :=
  if size > 0 then realloc_scan p addr size [] p.root else none

/-- Lines 28-37: the pool that is left and the returned flag.  After a successful
call the pool is released and no pool is left; a refused call leaves the pool as it
was. -/
def pool_destroy (p : pool) : Option pool × Bool :=
  match p.root with
  | _ :: _ => (some p, false)
  | [] => (none, true)

/-- The text of `printf(" %d ", start)` followed by `printf("[%d]", size)`, the two
calls that print one entry of a report. -/
def print_entry (start size : Int) : String :=
  " " ++ toString start ++ " " ++ "[" ++ toString size ++ "]"

/-- Lines 166-173 of `pool_print_active`: the text the loop prints from `curnode`
on. -/
def active_loop : List node → String
  | [] => ""
  | curnode :: rest =>
    print_entry curnode.start (curnode.«end» - curnode.start) ++
      (match rest with
       | _ :: _ => ","
       | [] => "") ++
      active_loop rest

/-- Lines 158-175: the text written to standard output. -/
def pool_print_active (p : pool) : String :=
  match p.root with
  | [] => "active: none\n"
  | curnode :: rest => "active:" ++ active_loop (curnode :: rest) ++ "\n"

/-- The local variables of `pool_print_available`, with the text printed so far. -/
structure available_state where
  NON_AVAILABLE : Int
  FIRST_SPACE : Int
  start : Int
  out : String

/-- Lines 187-201 of `pool_print_available`: the loop, from `curnode` on. -/
def available_loop (st : available_state) : List node → available_state
  | [] => st
  | curnode :: rest =>
    let e := curnode.start
    let space := e - st.start
    if space > 0 then
      let out1 := if st.FIRST_SPACE = 0 then st.out ++ "," else st.out
      available_loop
        { NON_AVAILABLE := 0, FIRST_SPACE := 0, start := curnode.«end»,
          out := out1 ++ print_entry st.start (e - st.start) } rest
    else
      available_loop { st with start := curnode.«end» } rest

/-- Lines 202-207 of `pool_print_available`: the check of the space after the last
node. -/
def available_tail (maxsize : Int) (st : available_state) : available_state :=
  if maxsize - st.start > 0 then
    { st with NON_AVAILABLE := 0,
              out := st.out ++ print_entry st.start (maxsize - st.start) }
  else st

/-- Lines 180-207 of `pool_print_available`: the local variables when the scan of the
pool is over, before the test of `NON_AVAILABLE`. -/
def available_scan (p : pool) : available_state :=
  available_tail p.maxsize
    (available_loop
      { NON_AVAILABLE := 1, FIRST_SPACE := 1, start := 0, out := "available:" } p.root)

/-- Lines 177-212: the text written to standard output. -/
def pool_print_available (p : pool) : String :=
  let st := available_scan p
  (if st.NON_AVAILABLE = 1 then st.out ++ " none" else st.out) ++ "\n"

/-! ## The vocabulary of the specification -/

/-- The record-collection invariant of the data model on a record list and a
capacity: every record has `end > start`, the first record has `start ≥ 0`, every
adjacent pair `(a, b)` (the pairs of `l.zip l.tail`) has `a.end ≤ b.start`, the
last record has `end ≤ capacity`. -/
def records_inv (capacity : Int) (l : List node) : Prop :=
  (∀ n ∈ l, n.«end» > n.start) ∧
  (∀ n ∈ l.head?, n.start ≥ 0) ∧
  (∀ ab ∈ l.zip l.tail, ab.1.«end» ≤ ab.2.start) ∧
  (∀ n ∈ l.getLast?, n.«end» ≤ capacity)

instance (capacity : Int) (l : List node) : Decidable (records_inv capacity l) :=
  inferInstanceAs (Decidable (_ ∧ _ ∧ _ ∧ _))

/-- The invariant in recursive form, for a list that lies above offset `lo`:
each record starts at or above the end of the one before (`lo` for the first),
is non-empty and ends at or below the capacity. -/
def sorted_from (lo capacity : Int) : List node → Prop
  | [] => True
  | n :: rest =>
    lo ≤ n.start ∧ n.start < n.«end» ∧ n.«end» ≤ capacity ∧ sorted_from n.«end» capacity rest

instance sorted_from_dec : ∀ (lo capacity : Int) (l : List node),
    Decidable (sorted_from lo capacity l)
  | _, _, [] => isTrue trivial
  | lo, capacity, n :: rest =>
    have := sorted_from_dec n.«end» capacity rest
    inferInstanceAs (Decidable (lo ≤ n.start ∧ n.start < n.«end» ∧ n.«end» ≤ capacity ∧
      sorted_from n.«end» capacity rest))

/-- The invariant on a pool. -/
def inv (p : pool) : Prop := records_inv p.maxsize p.root

instance (p : pool) : Decidable (inv p) :=
  inferInstanceAs (Decidable (records_inv p.maxsize p.root))

/-- The free gaps in ascending offset order, as pairs `(gap start, gap end)`,
beginning at offset `lo`: the gap up to each record and the tail gap up to the
capacity. -/
def gaps_from (lo capacity : Int) : List node → List (Int × Int)
  | [] => [(lo, capacity)]
  | n :: rest => (lo, n.start) :: gaps_from n.«end» capacity rest

/-- The free gaps of a pool as the specification enumerates them: the leading gap
`[0, first.start)`, each inter-record gap `[prev.end, next.start)` and the tail gap
`[last.end, capacity)`, or `[0, capacity)` when there are no records. -/
def gaps (p : pool) : List (Int × Int) := gaps_from 0 p.maxsize p.root

/-- A listing of entries separated by commas. -/
def comma_separated : List String → String
  | [] => ""
  | [a] => a
  | a :: b :: rest => a ++ "," ++ comma_separated (b :: rest)

/-- A listing in which a comma stands before every entry. -/
def comma_prefixed : List String → String
  | [] => ""
  | a :: rest => "," ++ a ++ comma_prefixed rest

/-- The text of one entry `(start, size)` of a report. -/
def entry_text (e : Int × Int) : String := print_entry e.1 e.2

/-- The entries `(start, size)` that the active report lists: one for each record, in
list order, with `size = end - start`. -/
def active_listed (p : pool) : List (Int × Int) :=
  p.root.map fun n => (n.start, n.«end» - n.start)

/-- The entries `(start, size)` that the loop of `pool_print_available` prints, from
the running offset `start` on: the same loop with the same test `space > 0`, keeping
the two numbers printed. -/
def listed_loop (start : Int) : List node → List (Int × Int)
  | [] => []
  | curnode :: rest =>
    if curnode.start - start > 0 then
      (start, curnode.start - start) :: listed_loop curnode.«end» rest
    else listed_loop curnode.«end» rest

/-- The value of `start` when the loop of `pool_print_available` is over. -/
def scan_end (start : Int) : List node → Int
  | [] => start
  | curnode :: rest => scan_end curnode.«end» rest

/-- The entry that `pool_print_available` prints for the space after the last node,
if it prints one. -/
def listed_tail (p : pool) : List (Int × Int) :=
  if p.maxsize - scan_end 0 p.root > 0 then
    [(scan_end 0 p.root, p.maxsize - scan_end 0 p.root)]
  else []

/-- The entries `(start, size)` that the available report lists, in the order
printed. -/
def available_listed (p : pool) : List (Int × Int) :=
  listed_loop 0 p.root ++ listed_tail p

/-- The free gaps of positive size, as entries `(start, size)`: what the
specification asks the available report to list. -/
def positive_gaps (p : pool) : List (Int × Int) :=
  ((gaps p).filter fun g => decide (g.2 - g.1 > 0)).map fun g => (g.1, g.2 - g.1)

/-- A buffer content for the examples: the byte at offset `i` is `i` modulo 256. -/
def ramp : Int → char := fun i => Fin.ofNat i.toNat

/-- The pool of the specification's scenario after its third step: capacity 100
with the records `[0, 20)` and `[30, 70)`. -/
def scenario_pool : pool :=
  { root := [{ start := 0, «end» := 20 }, { start := 30, «end» := 70 }],
    maxsize := 100, array := ramp }

/-- A pool with room after its last record: capacity 200 with the records `[0, 20)`
and `[30, 70)`. -/
def roomy_pool : pool :=
  { root := [{ start := 0, «end» := 20 }, { start := 30, «end» := 70 }],
    maxsize := 200, array := ramp }

/-- A pool with one record in the middle: capacity 100 with the record `[30, 70)`,
the pool of the specification's scenario after its second step. -/
def single_pool : pool :=
  { root := [{ start := 30, «end» := 70 }], maxsize := 100, array := ramp }

/-- A pool whose free space is split in two: capacity 30 with the record
`[10, 20)`. -/
def tight_pool : pool :=
  { root := [{ start := 10, «end» := 20 }], maxsize := 30, array := ramp }

/-- One public call on a pool. -/
inductive call where
  | alloc (size : Int)
  | free (addr : Option Int)
  | realloc (addr : Option Int) (size : Int)

/-- The precondition of a call: the sizes are positive. -/
def call.pre : call → Prop
  | .alloc size => 0 < size
  | .free _ => True
  | .realloc _ size => 0 < size

instance (c : call) : Decidable c.pre :=
  match c with
  | .alloc size => inferInstanceAs (Decidable (0 < size))
  | .free _ => inferInstanceAs (Decidable True)
  | .realloc _ size => inferInstanceAs (Decidable (0 < size))

/-- The pool after one call; `none` when the call aborts on an assertion. -/
def step (p : pool) : call → Option pool
  | .alloc size => (pool_alloc p size).map Prod.fst
  | .free addr => some (pool_free p addr).1
  | .realloc addr size => (pool_realloc p addr size).map Prod.fst

/-- The pool after a finite sequence of calls. -/
def run (p : pool) : List call → Option pool
  | [] => some p
  | c :: cs => (step p c).bind fun q => run q cs

/-! ## The invariant in recursive form -/

theorem sorted_from_iff (lo capacity : Int) (l : List node) :
    sorted_from lo capacity l ↔
      (∀ n ∈ l, n.«end» > n.start) ∧ (∀ n ∈ l.head?, n.start ≥ lo) ∧
      (∀ ab ∈ l.zip l.tail, ab.1.«end» ≤ ab.2.start) ∧
      (∀ n ∈ l.getLast?, n.«end» ≤ capacity) := by
  induction l generalizing lo with
  | nil => simp [sorted_from]
  | cons n rest ih =>
    cases rest with
    | nil => simp [sorted_from]; tauto
    | cons m rest =>
      rw [sorted_from, ih n.«end»]
      simp only [List.mem_cons, forall_eq_or_imp, List.head?_cons, Option.mem_def,
        Option.some.injEq, forall_eq', List.tail_cons, List.zip_cons_cons,
        List.getLast?_cons_cons, gt_iff_lt, ge_iff_le]
      constructor
      · rintro ⟨h1, h2, h3, ⟨h4, h5⟩, h6, h7, h8⟩
        exact ⟨⟨h2, h4, h5⟩, h1, ⟨h6, h7⟩, h8⟩
      · rintro ⟨⟨h2, h4, h5⟩, h1, ⟨h6, h7⟩, h8⟩
        refine ⟨h1, h2, ?_, ⟨h4, h5⟩, h6, h7, h8⟩
        have := (ih n.«end»).2 ⟨by simpa using ⟨h4, h5⟩, by simpa using h6, h7, h8⟩
        rw [sorted_from] at this
        omega

theorem records_inv_iff (capacity : Int) (l : List node) :
    records_inv capacity l ↔ sorted_from 0 capacity l :=
  (sorted_from_iff 0 capacity l).symm

theorem inv_iff (p : pool) : inv p ↔ sorted_from 0 p.maxsize p.root :=
  records_inv_iff p.maxsize p.root

/-! ## Facts about sorted record lists -/

theorem sorted_from_mono {lo lo' capacity : Int} {l : List node} (h : lo' ≤ lo)
    (hl : sorted_from lo capacity l) : sorted_from lo' capacity l := by
  cases l with
  | nil => trivial
  | cons n rest =>
    rw [sorted_from] at hl ⊢
    exact ⟨by omega, hl.2⟩

theorem sorted_from_mem {lo capacity : Int} {l : List node} (hl : sorted_from lo capacity l) :
    ∀ n ∈ l, lo ≤ n.start ∧ n.start < n.«end» ∧ n.«end» ≤ capacity := by
  induction l generalizing lo with
  | nil => simp
  | cons m rest ih =>
    rw [sorted_from] at hl
    intro n hn
    rcases List.mem_cons.1 hn with rfl | hn
    · exact ⟨hl.1, hl.2.1, hl.2.2.1⟩
    · have := ih hl.2.2.2 n hn
      omega

theorem sorted_from_split {lo capacity : Int} {pre : List node} {r : node} {post : List node}
    (hl : sorted_from lo capacity (pre ++ r :: post)) :
    (∀ n ∈ pre, lo ≤ n.start ∧ n.start < n.«end» ∧ n.«end» ≤ r.start) ∧
      lo ≤ r.start ∧ r.start < r.«end» ∧ r.«end» ≤ capacity ∧
      sorted_from r.«end» capacity post := by
  induction pre generalizing lo with
  | nil =>
    rw [List.nil_append, sorted_from] at hl
    simpa using hl
  | cons m pre ih =>
    rw [List.cons_append, sorted_from] at hl
    obtain ⟨h1, h2, h3, h4, h5⟩ := ih hl.2.2.2
    refine ⟨?_, by omega, h3, h4, h5⟩
    intro n hn
    rcases List.mem_cons.1 hn with rfl | hn
    · exact ⟨hl.1, hl.2.1, h2⟩
    · have := h1 n hn
      omega

theorem sorted_from_remove {lo capacity : Int} {pre : List node} {r : node} {post : List node}
    (hl : sorted_from lo capacity (pre ++ r :: post)) :
    sorted_from lo capacity (pre ++ post) := by
  induction pre generalizing lo with
  | nil =>
    rw [List.nil_append, sorted_from] at hl
    exact sorted_from_mono (by omega) hl.2.2.2
  | cons m pre ih =>
    rw [List.cons_append, sorted_from] at hl ⊢
    exact ⟨hl.1, hl.2.1, hl.2.2.1, ih hl.2.2.2⟩

theorem sorted_from_set_end {lo capacity : Int} {pre : List node} {r : node} {post : List node}
    (hl : sorted_from lo capacity (pre ++ r :: post)) (e : Int) (h1 : r.start < e)
    (h2 : e ≤ capacity) (h3 : ∀ n ∈ post.head?, e ≤ n.start) :
    sorted_from lo capacity (pre ++ { r with «end» := e } :: post) := by
  induction pre generalizing lo with
  | nil =>
    rw [List.nil_append, sorted_from] at hl ⊢
    refine ⟨hl.1, h1, h2, ?_⟩
    cases post with
    | nil => trivial
    | cons m post =>
      have hm := hl.2.2.2
      rw [sorted_from] at hm ⊢
      exact ⟨h3 m (by simp), hm.2⟩
  | cons m pre ih =>
    rw [List.cons_append, sorted_from] at hl ⊢
    exact ⟨hl.1, hl.2.1, hl.2.2.1, ih hl.2.2.2⟩

theorem gaps_from_lower {lo capacity : Int} {l : List node} (hl : sorted_from lo capacity l) :
    ∀ g ∈ gaps_from lo capacity l, lo ≤ g.1 := by
  induction l generalizing lo with
  | nil => simp [gaps_from]
  | cons m rest ih =>
    rw [sorted_from] at hl
    intro g hg
    rw [gaps_from] at hg
    rcases List.mem_cons.1 hg with rfl | hg
    · exact le_refl _
    · have := ih hl.2.2.2 g hg
      omega

/-! ## Facts about `pool_alloc` -/

theorem alloc_body_eq (p : pool) (size : Int) :
    alloc_body p size =
      match alloc_scan p.maxsize size 0 p.root with
      | some (l, a) => ({ p with root := l }, some a)
      | none => (p, none) := by
  unfold alloc_body
  cases hr : p.root with
  | nil =>
    simp only [alloc_scan, sub_zero]
    split <;> rfl
  | cons n rest =>
    simp only [alloc_scan, sub_zero]
    split
    · rfl
    · cases alloc_scan p.maxsize size n.«end» rest with
      | none => rfl
      | some x => rfl

theorem alloc_scan_none_iff (capacity size lo : Int) (l : List node) :
    alloc_scan capacity size lo l = none ↔
      ∀ g ∈ gaps_from lo capacity l, g.2 - g.1 < size := by
  induction l generalizing lo with
  | nil =>
    simp only [alloc_scan, gaps_from, List.mem_singleton, forall_eq]
    split <;> simp <;> omega
  | cons n rest ih =>
    simp only [alloc_scan, gaps_from, List.mem_cons, forall_eq_or_imp]
    split
    · simp; intro; omega
    · rw [← ih n.«end»]
      cases alloc_scan capacity size n.«end» rest with
      | none => simp; omega
      | some x => simp

theorem alloc_scan_some {capacity size lo : Int} {l l' : List node} {a : Int}
    (hs : 0 < size) (hl : sorted_from lo capacity l)
    (h : alloc_scan capacity size lo l = some (l', a)) :
    lo ≤ a ∧
      (∃ hi, (a, hi) ∈ gaps_from lo capacity l ∧ hi - a ≥ size) ∧
      (∀ g ∈ gaps_from lo capacity l, g.1 < a → g.2 - g.1 < size) ∧
      (∃ pre post, l = pre ++ post ∧ l' = pre ++ new_node a size :: post ∧
        (∀ n ∈ pre, n.«end» ≤ a) ∧ (∀ n ∈ post, a + size ≤ n.start)) ∧
      sorted_from lo capacity l' := by
  induction l generalizing lo l' with
  | nil =>
    simp only [alloc_scan] at h
    split at h
    · simp only [Option.some.injEq, Prod.mk.injEq] at h
      obtain ⟨rfl, rfl⟩ := h
      refine ⟨le_refl _, ⟨capacity, by simp [gaps_from], by omega⟩, ?_, ⟨[], [], ?_⟩, ?_⟩
      · simp [gaps_from]
      · simp
      · simp only [sorted_from, new_node, and_true]
        omega
    · simp at h
  | cons n rest ih =>
    have hn := hl
    rw [sorted_from] at hn
    simp only [alloc_scan] at h
    split at h
    · simp only [Option.some.injEq, Prod.mk.injEq] at h
      obtain ⟨rfl, rfl⟩ := h
      refine ⟨le_refl _, ⟨n.start, by simp [gaps_from], by omega⟩, ?_, ⟨[], n :: rest, ?_⟩, ?_⟩
      · intro g hg hlt
        have := gaps_from_lower hl g hg
        omega
      · refine ⟨rfl, rfl, by simp, ?_⟩
        intro m hm
        have := sorted_from_mem hl m hm
        rcases List.mem_cons.1 hm with rfl | hm'
        · omega
        · have := sorted_from_mem hn.2.2.2 m hm'
          omega
      · rw [sorted_from, sorted_from]
        simp only [new_node]
        exact ⟨le_refl _, by omega, by omega, by omega, hn.2.1, hn.2.2.1, hn.2.2.2⟩
    · rename_i hfit
      cases hrec : alloc_scan capacity size n.«end» rest with
      | none => simp [hrec] at h
      | some x =>
        obtain ⟨l1, a1⟩ := x
        simp only [hrec, Option.some.injEq, Prod.mk.injEq] at h
        obtain ⟨rfl, rfl⟩ := h
        obtain ⟨h1, ⟨hi, h2, h2'⟩, h3, ⟨pre, post, h4, h5, h6, h7⟩, h8⟩ := ih hn.2.2.2 hrec
        refine ⟨by omega, ⟨hi, ?_, h2'⟩, ?_, ⟨n :: pre, post, ?_⟩, ?_⟩
        · rw [gaps_from]; exact List.mem_cons_of_mem _ h2
        · intro g hg hlt
          rw [gaps_from] at hg
          rcases List.mem_cons.1 hg with rfl | hg
          · simp only; omega
          · exact h3 g hg hlt
        · refine ⟨by simp [h4], by simp [h5], ?_, h7⟩
          intro m hm
          rcases List.mem_cons.1 hm with rfl | hm
          · exact h1
          · exact h6 m hm
        · rw [sorted_from]
          exact ⟨hn.1, hn.2.1, hn.2.2.1, h8⟩

/-! ## Facts about `pool_free` -/

theorem pool_free_eq (p : pool) (a : Int) :
    pool_free p (some a) =
      match free_scan a p.root with
      | some l => ({ p with root := l }, true)
      | none => (p, false) := by
  unfold pool_free
  cases hr : p.root with
  | nil => simp [free_scan]
  | cons n rest =>
    simp only [free_scan]
    split
    · rfl
    · cases free_scan a rest with
      | none => rfl
      | some x => rfl

theorem free_scan_none_iff (a : Int) (l : List node) :
    free_scan a l = none ↔ ∀ n ∈ l, n.start ≠ a := by
  induction l with
  | nil => simp [free_scan]
  | cons n rest ih =>
    simp only [free_scan, List.mem_cons, forall_eq_or_imp]
    split
    · simp [*]
    · rw [← ih]
      cases free_scan a rest with
      | none => simp [*]
      | some x => simp

theorem free_scan_split {a : Int} {pre : List node} {r : node} {post : List node}
    (hpre : ∀ n ∈ pre, n.start ≠ a) (hr : r.start = a) :
    free_scan a (pre ++ r :: post) = some (pre ++ post) := by
  induction pre with
  | nil => simp [free_scan, hr]
  | cons m pre ih =>
    have hm : m.start ≠ a := hpre m (by simp)
    have := ih (fun n hn => hpre n (List.mem_cons_of_mem _ hn))
    simp [free_scan, hm, this]

theorem free_scan_some {a : Int} {l l' : List node} (h : free_scan a l = some l') :
    ∃ pre r post, l = pre ++ r :: post ∧ l' = pre ++ post ∧ r.start = a ∧
      ∀ n ∈ pre, n.start ≠ a := by
  induction l generalizing l' with
  | nil => simp [free_scan] at h
  | cons m rest ih =>
    simp only [free_scan] at h
    split at h
    · rename_i hm
      simp only [Option.some.injEq] at h
      exact ⟨[], m, rest, by simp, by simp [h], hm, by simp⟩
    · rename_i hm
      cases hrec : free_scan a rest with
      | none => simp [hrec] at h
      | some x =>
        simp only [hrec, Option.some.injEq] at h
        obtain ⟨pre, r, post, h1, h2, h3, h4⟩ := ih hrec
        refine ⟨m :: pre, r, post, by simp [h1], by simp [← h, h2], h3, ?_⟩
        intro n hn
        rcases List.mem_cons.1 hn with rfl | hn
        · exact hm
        · exact h4 n hn

theorem sorted_from_starts_ne {lo capacity : Int} {pre : List node} {r : node}
    {post : List node} (hl : sorted_from lo capacity (pre ++ r :: post)) :
    (∀ n ∈ pre, n.start ≠ r.start) ∧ (∀ n ∈ post, n.start ≠ r.start) ∧
      r ∉ pre ∧ r ∉ post := by
  obtain ⟨h1, _, h3, _, h5⟩ := sorted_from_split hl
  have hpre : ∀ n ∈ pre, n.start ≠ r.start := fun n hn => by
    have := h1 n hn
    omega
  have hpost : ∀ n ∈ post, n.start ≠ r.start := fun n hn => by
    have := sorted_from_mem h5 n hn
    omega
  exact ⟨hpre, hpost, fun h => hpre r h rfl, fun h => hpost r h rfl⟩

theorem pool_free_inv {p : pool} (hp : inv p) (addr : Option Int) :
    inv (pool_free p addr).1 := by
  cases addr with
  | none => simpa [pool_free] using hp
  | some a =>
    rw [pool_free_eq]
    cases hf : free_scan a p.root with
    | none => simpa using hp
    | some l =>
      obtain ⟨pre, r, post, h1, h2, -, -⟩ := free_scan_some hf
      rw [inv_iff] at hp ⊢
      rw [h1] at hp
      simpa [h2] using sorted_from_remove hp

/-! ## Facts about `memcpy` -/

theorem memcpy_outside (mem : Int → char) (dst src : Int) (k : Nat) (j : Int)
    (hj : j < dst ∨ dst + k ≤ j) : memcpy mem dst src k j = mem j := by
  induction k with
  | zero => rfl
  | succ k ih =>
    simp only [memcpy]
    rw [Function.update_noteq (by push_cast at hj; omega)]
    exact ih (by push_cast at hj; omega)

theorem memcpy_inside (mem : Int → char) (dst src : Int) (k : Nat)
    (hd : src + k ≤ dst ∨ dst + k ≤ src) (i : Nat) (hi : i < k) :
    memcpy mem dst src k (dst + i) = mem (src + i) := by
  induction k with
  | zero => omega
  | succ k ih =>
    simp only [memcpy]
    by_cases hik : i = k
    · subst hik
      rw [Function.update_same]
      exact memcpy_outside mem dst src i _ (by push_cast at hd; omega)
    · rw [Function.update_noteq (by omega)]
      exact ih (by push_cast at hd; omega) (by omega)

theorem erase_split {pre : List node} {r : node} {post : List node} (h : r ∉ pre) :
    (pre ++ r :: post).erase r = pre ++ post := by
  rw [List.erase_append_right _ h, List.erase_cons_head]

theorem free_scan_erase {lo capacity : Int} {l : List node} {r : node}
    (hl : sorted_from lo capacity l) (hr : r ∈ l) :
    free_scan r.start l = some (l.erase r) := by
  obtain ⟨s, t, rfl⟩ := List.append_of_mem hr
  obtain ⟨h1, -, h3, -⟩ := sorted_from_starts_ne hl
  rw [free_scan_split h1 rfl, erase_split h3]

/-! ## Facts about `pool_realloc` -/

theorem in_place_iff (capacity size : Int) (r : node) (post : List node) :
    in_place capacity size r post = true ↔
      size ≤ r.«end» - r.start ∨
      (∃ n post', post = n :: post' ∧ size ≤ n.start - r.start) ∨
      (post = [] ∧ size ≤ capacity - r.start) := by
  cases post <;> simp [in_place]

theorem realloc_scan_skip (p : pool) (addr : Option Int) (size : Int)
    (pre l1 l2 : List node) (h : ∀ n ∈ l1, some n.start ≠ addr) :
    realloc_scan p addr size pre (l1 ++ l2) = realloc_scan p addr size (pre ++ l1) l2 := by
  induction l1 generalizing pre with
  | nil => simp
  | cons m l1 ih =>
    have hm : some m.start ≠ addr := h m (by simp)
    rw [List.cons_append, realloc_scan, if_neg hm,
      ih (pre ++ [m]) (fun n hn => h n (List.mem_cons_of_mem _ hn))]
    simp

theorem realloc_scan_no_match (p : pool) (addr : Option Int) (size : Int)
    (pre l : List node) (h : ∀ n ∈ l, some n.start ≠ addr) :
    realloc_scan p addr size pre l = some (p, none) := by
  have := realloc_scan_skip p addr size pre l [] h
  simpa [realloc_scan] using this

theorem realloc_scan_cases (p : pool) (addr : Option Int) (size : Int) (pre l : List node) :
    ((∀ n ∈ l, some n.start ≠ addr) ∧ realloc_scan p addr size pre l = some (p, none)) ∨
    (∃ l1 r l2, l = l1 ++ r :: l2 ∧ (∀ n ∈ l1, some n.start ≠ addr) ∧ some r.start = addr ∧
      realloc_scan p addr size pre l = realloc_at p addr size (pre ++ l1) r l2) := by
  induction l generalizing pre with
  | nil => left; simp [realloc_scan]
  | cons m l ih =>
    by_cases hm : some m.start = addr
    · right
      exact ⟨[], m, l, by simp, by simp, hm, by simp [realloc_scan, hm]⟩
    · rcases ih (pre ++ [m]) with ⟨h1, h2⟩ | ⟨l1, r, l2, h1, h2, h3, h4⟩
      · left
        refine ⟨?_, by simp [realloc_scan, hm, h2]⟩
        intro n hn
        rcases List.mem_cons.1 hn with rfl | hn
        · exact hm
        · exact h1 n hn
      · right
        refine ⟨m :: l1, r, l2, by simp [h1], ?_, h3, by simp [realloc_scan, hm, h4]⟩
        intro n hn
        rcases List.mem_cons.1 hn with rfl | hn
        · exact hm
        · exact h2 n hn

theorem pool_realloc_at {p : pool} {pre : List node} {r : node} {post : List node}
    {size : Int} (hs : 0 < size) (hp : inv p) (hr : p.root = pre ++ r :: post) :
    pool_realloc p (some r.start) size = realloc_at p (some r.start) size pre r post := by
  rw [inv_iff, hr] at hp
  obtain ⟨h1, -⟩ := sorted_from_starts_ne hp
  unfold pool_realloc
  rw [if_pos hs, hr, realloc_scan_skip p _ size [] pre (r :: post)
    (fun n hn h => h1 n hn (Option.some.inj h))]
  simp [realloc_scan]

theorem realloc_at_in_place {p : pool} {pre : List node} {r : node} {post : List node}
    {size : Int} (addr : Option Int) (h : in_place p.maxsize size r post = true) :
    realloc_at p addr size pre r post =
      some ({ p with root := pre ++ { r with «end» := r.start + size } :: post },
        some r.start) := by
  simp [realloc_at, h]

theorem realloc_at_fail {p : pool} {pre : List node} {r : node} {post : List node}
    {size : Int} (addr : Option Int) (hs : 0 < size)
    (h : in_place p.maxsize size r post = false)
    (ha : alloc_scan p.maxsize size 0 p.root = none) :
    realloc_at p addr size pre r post = some (p, none) := by
  simp [realloc_at, h, pool_alloc, hs, alloc_body_eq, ha]

theorem realloc_at_move {p : pool} {pre : List node} {r : node} {post : List node}
    {size : Int} {l : List node} {a : Int} (hs : 0 < size) (hp : inv p)
    (hr : p.root = pre ++ r :: post) (h : in_place p.maxsize size r post = false)
    (ha : alloc_scan p.maxsize size 0 p.root = some (l, a)) :
    realloc_at p (some r.start) size pre r post =
      some ({ root := l.erase r, maxsize := p.maxsize,
              array := memcpy p.array a r.start (r.«end» - r.start).toNat }, some a) := by
  rw [inv_iff] at hp
  obtain ⟨-, -, -, ⟨l1, l2, h1, h2, -, -⟩, hl⟩ := alloc_scan_some hs hp ha
  have hmem : r ∈ l := by
    have : r ∈ p.root := by rw [hr]; simp
    rw [h1] at this
    rw [h2]
    rcases List.mem_append.1 this with h | h
    · exact List.mem_append_left _ h
    · exact List.mem_append_right _ (List.mem_cons_of_mem _ h)
  have hfree := free_scan_erase hl hmem
  simp [realloc_at, h, pool_alloc, hs, alloc_body_eq, ha, pool_free_eq, hfree]

/-! ## Preservation of the invariant, step by step -/

theorem sorted_from_erase {lo capacity : Int} {l : List node} (hl : sorted_from lo capacity l)
    (r : node) : sorted_from lo capacity (l.erase r) := by
  by_cases hr : r ∈ l
  · obtain ⟨s, t, rfl⟩ := List.append_of_mem hr
    obtain ⟨-, -, h3, -⟩ := sorted_from_starts_ne hl
    rw [erase_split h3]
    exact sorted_from_remove hl
  · rwa [List.erase_of_not_mem hr]

theorem pool_alloc_inv {p : pool} (hp : inv p) {size : Int} (hs : 0 < size) :
    ∃ p' res, pool_alloc p size = some (p', res) ∧ inv p' ∧ p'.maxsize = p.maxsize := by
  refine ⟨(alloc_body p size).1, (alloc_body p size).2, by simp [pool_alloc, hs], ?_⟩
  rw [alloc_body_eq]
  cases ha : alloc_scan p.maxsize size 0 p.root with
  | none => exact ⟨hp, rfl⟩
  | some x =>
    obtain ⟨l, a⟩ := x
    rw [inv_iff] at hp ⊢
    exact ⟨(alloc_scan_some hs hp ha).2.2.2.2, rfl⟩

theorem pool_free_maxsize (p : pool) (addr : Option Int) :
    (pool_free p addr).1.maxsize = p.maxsize := by
  cases addr with
  | none => simp [pool_free]
  | some a =>
    rw [pool_free_eq]
    cases free_scan a p.root <;> rfl

theorem in_place_inv {p : pool} {pre : List node} {r : node} {post : List node} {size : Int}
    (hs : 0 < size) (hp : inv p) (hr : p.root = pre ++ r :: post)
    (h : in_place p.maxsize size r post = true) :
    sorted_from 0 p.maxsize (pre ++ { r with «end» := r.start + size } :: post) := by
  rw [inv_iff, hr] at hp
  obtain ⟨-, -, h3, h4, h5⟩ := sorted_from_split hp
  rcases (in_place_iff _ _ _ _).1 h with h | ⟨n, post', rfl, h⟩ | ⟨rfl, h⟩
  · refine sorted_from_set_end hp _ (by omega) (by omega) ?_
    intro n hn
    have := sorted_from_mem h5 n (List.mem_of_mem_head? hn)
    omega
  · have := sorted_from_mem h5 n (by simp)
    refine sorted_from_set_end hp _ (by omega) (by omega) ?_
    intro m hm
    simp only [List.head?_cons, Option.mem_def, Option.some.injEq] at hm
    subst hm
    omega
  · exact sorted_from_set_end hp _ (by omega) (by omega) (by simp)

theorem pool_realloc_inv {p : pool} (hp : inv p) (addr : Option Int) {size : Int}
    (hs : 0 < size) :
    ∃ p' res, pool_realloc p addr size = some (p', res) ∧ inv p' ∧ p'.maxsize = p.maxsize := by
  unfold pool_realloc
  rw [if_pos hs]
  rcases realloc_scan_cases p addr size [] p.root with ⟨-, h⟩ | ⟨l1, r, l2, h1, -, h3, h4⟩
  · exact ⟨p, none, h, hp, rfl⟩
  · rw [h4, List.nil_append]
    subst h3
    cases hip : in_place p.maxsize size r l2 with
    | true =>
      rw [realloc_at_in_place _ hip]
      refine ⟨_, _, rfl, ?_, rfl⟩
      rw [inv_iff]
      exact in_place_inv (p := p) hs hp h1 hip
    | false =>
      cases ha : alloc_scan p.maxsize size 0 p.root with
      | none =>
        rw [realloc_at_fail _ hs hip ha]
        exact ⟨p, none, rfl, hp, rfl⟩
      | some x =>
        obtain ⟨l, a⟩ := x
        rw [realloc_at_move hs hp h1 hip ha]
        refine ⟨_, _, rfl, ?_, rfl⟩
        rw [inv_iff] at hp ⊢
        exact sorted_from_erase (alloc_scan_some hs hp ha).2.2.2.2 r

theorem step_inv {p : pool} (hp : inv p) {c : call} (hc : c.pre) :
    ∃ q, step p c = some q ∧ inv q ∧ q.maxsize = p.maxsize := by
  cases c with
  | alloc size =>
    obtain ⟨p', res, h1, h2, h3⟩ := pool_alloc_inv hp (show 0 < size from hc)
    exact ⟨p', by simp [step, h1], h2, h3⟩
  | free addr => exact ⟨_, rfl, pool_free_inv hp addr, pool_free_maxsize p addr⟩
  | realloc addr size =>
    obtain ⟨p', res, h1, h2, h3⟩ := pool_realloc_inv hp addr (show 0 < size from hc)
    exact ⟨p', by simp [step, h1], h2, h3⟩

theorem run_inv (calls : List call) : ∀ {p : pool}, inv p → (∀ c ∈ calls, c.pre) →
    ∃ q, run p calls = some q ∧ inv q ∧ q.maxsize = p.maxsize := by
  induction calls with
  | nil => intro p hp _; exact ⟨p, rfl, hp, rfl⟩
  | cons c cs ih =>
    intro p hp hc
    obtain ⟨q, h1, h2, h3⟩ := step_inv hp (hc c (by simp))
    obtain ⟨q', h4, h5, h6⟩ := ih h2 (fun d hd => hc d (List.mem_cons_of_mem _ hd))
    exact ⟨q', by simp [run, h1, h4], h5, by omega⟩

theorem alloc_scan_apart {p : pool} {r : node} {size : Int} {l : List node} {a : Int}
    (hs : 0 < size) (hp : inv p) (hr : r ∈ p.root)
    (ha : alloc_scan p.maxsize size 0 p.root = some (l, a)) :
    r.«end» ≤ a ∨ a + size ≤ r.start := by
  rw [inv_iff] at hp
  obtain ⟨-, -, -, ⟨l1, l2, h1, -, h3, h4⟩, -⟩ := alloc_scan_some hs hp ha
  rw [h1] at hr
  rcases List.mem_append.1 hr with h | h
  · exact Or.inl (h3 r h)
  · exact Or.inr (h4 r h)

theorem not_in_place {p : pool} {pre : List node} {r : node} {post : List node}
    {size : Int} (hp : inv p) (hr : p.root = pre ++ r :: post)
    (hno : ¬ (size ≤ r.«end» - r.start ∨
      (∃ n post', post = n :: post' ∧ size ≤ n.start - r.start) ∨
      (post = [] ∧ size ≤ p.maxsize - r.start))) :
    0 < size ∧ r.«end» - r.start < size ∧ in_place p.maxsize size r post = false := by
  rw [inv_iff, hr] at hp
  have := (sorted_from_split hp).2.2.1
  have h1 : ¬ size ≤ r.«end» - r.start := fun h => hno (Or.inl h)
  refine ⟨by omega, by omega, ?_⟩
  rw [← Bool.not_eq_true, in_place_iff]
  exact hno

theorem no_start_inside {lo capacity : Int} {l : List node} {r : node} {a : Int}
    (hl : sorted_from lo capacity l) (hr : r ∈ l) (h1 : r.start < a) (h2 : a < r.«end») :
    ∀ n ∈ l, n.start ≠ a := by
  obtain ⟨pre, post, rfl⟩ := List.append_of_mem hr
  obtain ⟨hpre, -, -, -, hpost⟩ := sorted_from_split hl
  intro n hn
  rcases List.mem_append.1 hn with h | h
  · have := hpre n h
    omega
  · rcases List.mem_cons.1 h with rfl | h
    · omega
    · have := sorted_from_mem hpost n h
      omega

/-! ## Facts about the reports -/

theorem comma_separated_cons (a : String) (rest : List String) :
    comma_separated (a :: rest) = a ++ comma_prefixed rest := by
  induction rest generalizing a with
  | nil => simp [comma_separated, comma_prefixed]
  | cons b rest ih =>
    rw [comma_separated, ih b, comma_prefixed]
    simp [String.append_assoc]

theorem active_loop_eq (l : List node) :
    active_loop l =
      comma_separated (l.map fun n => print_entry n.start (n.«end» - n.start)) := by
  induction l with
  | nil => rfl
  | cons n rest ih =>
    cases rest with
    | nil => simp [active_loop, comma_separated]
    | cons m rest =>
      rw [active_loop, ih]
      simp [comma_separated]

theorem available_loop_more (st : available_state) (l : List node) (h : st.FIRST_SPACE = 0) :
    available_loop st l =
      { NON_AVAILABLE := if listed_loop st.start l = [] then st.NON_AVAILABLE else 0,
        FIRST_SPACE := 0,
        start := scan_end st.start l,
        out := st.out ++ comma_prefixed ((listed_loop st.start l).map entry_text) } := by
  induction l generalizing st with
  | nil =>
    obtain ⟨na, fs, start, out⟩ := st
    simp only at h
    simp [available_loop, listed_loop, scan_end, comma_prefixed, h]
  | cons n rest ih =>
    rw [available_loop, listed_loop, scan_end]
    by_cases hsp : n.start - st.start > 0
    · simp only [hsp, if_true, h]
      rw [ih _ rfl]
      simp [comma_prefixed, entry_text, String.append_assoc]
    · simp only [hsp, if_false]
      exact ih _ h

theorem available_loop_first (st : available_state) (l : List node) (h : st.FIRST_SPACE ≠ 0) :
    available_loop st l =
      { NON_AVAILABLE := if listed_loop st.start l = [] then st.NON_AVAILABLE else 0,
        FIRST_SPACE := if listed_loop st.start l = [] then st.FIRST_SPACE else 0,
        start := scan_end st.start l,
        out := st.out ++ comma_separated ((listed_loop st.start l).map entry_text) } := by
  induction l generalizing st with
  | nil =>
    obtain ⟨na, fs, start, out⟩ := st
    simp [available_loop, listed_loop, scan_end, comma_separated]
  | cons n rest ih =>
    rw [available_loop, listed_loop, scan_end]
    by_cases hsp : n.start - st.start > 0
    · simp only [hsp, if_true, h, if_false]
      rw [available_loop_more _ _ rfl]
      simp [comma_separated_cons, entry_text, String.append_assoc]
    · simp only [hsp, if_false]
      exact ih _ h

theorem pool_print_active_eq (p : pool) :
    pool_print_active p =
      "active:" ++
        (if p.root = [] then " none"
         else comma_separated ((active_listed p).map entry_text)) ++ "\n" := by
  unfold pool_print_active active_listed
  cases h : p.root with
  | nil => simp
  | cons n rest =>
    simp only [active_loop_eq, List.map_map]
    simp [Function.comp_def, entry_text]

theorem available_scan_eq (p : pool) :
    available_scan p =
      { NON_AVAILABLE := if available_listed p = [] then 1 else 0,
        FIRST_SPACE := if listed_loop 0 p.root = [] then 1 else 0,
        start := scan_end 0 p.root,
        out := "available:" ++ comma_separated ((listed_loop 0 p.root).map entry_text) ++
          comma_separated ((listed_tail p).map entry_text) } := by
  unfold available_scan
  rw [available_loop_first _ _ (by decide)]
  unfold available_tail available_listed listed_tail
  by_cases ht : p.maxsize - scan_end 0 p.root > 0
  · simp [ht, comma_separated, entry_text]
  · simp [ht, comma_separated]

theorem pool_print_available_eq (p : pool) :
    pool_print_available p =
      "available:" ++ comma_separated ((listed_loop 0 p.root).map entry_text) ++
        comma_separated ((listed_tail p).map entry_text) ++
        (if available_listed p = [] then " none" else "") ++ "\n" := by
  unfold pool_print_available
  rw [available_scan_eq]
  by_cases h : available_listed p = []
  · simp [h]
  · simp [h]

theorem listed_loop_gaps (lo capacity : Int) (l : List node) :
    listed_loop lo l ++
        (if capacity - scan_end lo l > 0 then [(scan_end lo l, capacity - scan_end lo l)]
         else []) =
      ((gaps_from lo capacity l).filter fun g => decide (g.2 - g.1 > 0)).map
        fun g => (g.1, g.2 - g.1) := by
  induction l generalizing lo with
  | nil =>
    simp only [listed_loop, scan_end, gaps_from, List.nil_append]
    by_cases h : capacity - lo > 0 <;> simp [h, List.filter]
  | cons n rest ih =>
    simp only [listed_loop, scan_end, gaps_from]
    by_cases h : n.start - lo > 0
    · simpa [h, List.filter] using ih n.«end»
    · simpa [h, List.filter] using ih n.«end»

theorem available_listed_eq (p : pool) : available_listed p = positive_gaps p :=
  listed_loop_gaps 0 p.maxsize p.root

theorem toDigitsCore_length_pos (fuel n : Nat) (ds : List Char) :
    ds.length < (Nat.toDigitsCore 10 (fuel + 1) n ds).length := by
  induction fuel generalizing n ds with
  | zero =>
    simp only [Nat.toDigitsCore]
    split <;> simp
  | succ k ih =>
    rw [Nat.toDigitsCore]
    split
    · simp
    · have := ih (n / 10) (Nat.digitChar (n % 10) :: ds)
      simp only [List.length_cons] at this
      omega

theorem toString_int_length_pos (i : Int) : 1 ≤ (toString i).length := by
  cases i with
  | ofNat m =>
    show 1 ≤ (Nat.repr m).length
    have := toDigitsCore_length_pos m m []
    simpa [Nat.repr, Nat.toDigits, List.asString, String.length] using this
  | negSucc m =>
    show 1 ≤ ("-" ++ toString (Nat.succ m)).length
    rw [String.length_append]
    have : ("-" : String).length = 1 := rfl
    omega

theorem entry_text_length (e : Int × Int) : 6 ≤ (entry_text e).length := by
  have h1 := toString_int_length_pos e.1
  have h2 := toString_int_length_pos e.2
  have hs : (" " : String).length = 1 := rfl
  have hb : ("[" : String).length = 1 := rfl
  have hc : ("]" : String).length = 1 := rfl
  simp only [entry_text, print_entry, String.length_append, hs, hb, hc]
  omega

theorem comma_separated_length {l : List (Int × Int)} (h : l ≠ []) :
    6 ≤ (comma_separated (l.map entry_text)).length := by
  cases l with
  | nil => exact absurd rfl h
  | cons e rest =>
    rw [List.map_cons, comma_separated_cons, String.length_append]
    have := entry_text_length e
    omega

theorem print_available_none_iff (p : pool) :
    pool_print_available p = "available: none\n" ↔ available_listed p = [] := by
  constructor
  · intro h
    by_contra hne
    have hlen : (pool_print_available p).length = 16 := by rw [h]; rfl
    rw [pool_print_available_eq, if_neg hne] at hlen
    have hl : ("available:" : String).length = 10 := rfl
    have hn : ("\n" : String).length = 1 := rfl
    have he : ("" : String).length = 0 := rfl
    simp only [String.length_append, hl, hn, he] at hlen
    by_cases h1 : listed_loop 0 p.root = []
    · have h2 : listed_tail p ≠ [] := by
        intro h2
        exact hne (by simp [available_listed, h1, h2])
      have := comma_separated_length h2
      omega
    · have := comma_separated_length h1
      omega
  · intro h
    rw [pool_print_available_eq, if_pos h]
    have h' := h
    simp only [available_listed, List.append_eq_nil] at h'
    rw [h'.1, h'.2]
    rfl

theorem listed_loop_pos (start : Int) (l : List node) :
    ∀ e ∈ listed_loop start l, 0 < e.2 := by
  induction l generalizing start with
  | nil => simp [listed_loop]
  | cons n rest ih =>
    rw [listed_loop]
    split
    · intro e he
      rcases List.mem_cons.1 he with rfl | he
      · assumption
      · exact ih _ e he
    · exact ih _

theorem available_listed_pos (p : pool) : ∀ e ∈ available_listed p, 0 < e.2 := by
  intro e he
  rcases List.mem_append.1 he with h | h
  · exact listed_loop_pos 0 p.root e h
  · unfold listed_tail at h
    split at h
    · simp only [List.mem_singleton] at h
      subst h
      assumption
    · simp at h

theorem sum_pos_of_ne_nil {l : List (Int × Int)} (hpos : ∀ e ∈ l, 0 < e.2) (h : l ≠ []) :
    0 < (l.map Prod.snd).sum := by
  induction l with
  | nil => exact absurd rfl h
  | cons e rest ih =>
    have he : 0 < e.2 := hpos e (by simp)
    by_cases hr : rest = []
    · simp [hr, he]
    · have := ih (fun x hx => hpos x (List.mem_cons_of_mem _ hx)) hr
      simp only [List.map_cons, List.sum_cons]
      omega

theorem scan_sum {lo capacity : Int} {l : List node} (hl : sorted_from lo capacity l)
    (hlo : lo ≤ capacity) :
    (l.map fun n => n.«end» - n.start).sum + ((listed_loop lo l).map Prod.snd).sum +
        (capacity - scan_end lo l) = capacity - lo ∧
      scan_end lo l ≤ capacity := by
  induction l generalizing lo with
  | nil => simp [listed_loop, scan_end, hlo]
  | cons n rest ih =>
    rw [sorted_from] at hl
    obtain ⟨h1, h2⟩ := ih hl.2.2.2 hl.2.2.1
    refine ⟨?_, by simpa [scan_end] using h2⟩
    simp only [List.map_cons, List.sum_cons, listed_loop, scan_end]
    split
    · simp only [List.map_cons, List.sum_cons]
      omega
    · omega

/-! ## The code on the example pools -/

theorem scenario_alloc_fits :
    (pool_alloc scenario_pool 10).map (fun x => (x.1.root, x.1.maxsize, x.2)) =
      some ([{ start := 0, «end» := 20 }, { start := 20, «end» := 30 },
        { start := 30, «end» := 70 }], 100, some 20) := by
  decide

theorem scenario_alloc_too_large :
    (pool_alloc scenario_pool 31).map (fun x => (x.1.root, x.1.maxsize, x.2)) =
      some ([{ start := 0, «end» := 20 }, { start := 30, «end» := 70 }], 100, none) := by
  decide

theorem scenario_realloc_too_large :
    (pool_realloc scenario_pool (some 30) 71).map (fun x => (x.1.root, x.1.maxsize, x.2)) =
      some ([{ start := 0, «end» := 20 }, { start := 30, «end» := 70 }], 100, none) := by
  decide

theorem roomy_realloc_moves :
    (pool_realloc roomy_pool (some 0) 31).map
        (fun x => (x.1.root, x.1.maxsize, x.2,
          [x.1.array 70, x.1.array 75, x.1.array 89, x.1.array 90])) =
      some ([{ start := 30, «end» := 70 }, { start := 70, «end» := 101 }], 200, some 70,
        [0, 5, 19, 90]) := by
  decide

/-! ## The claims -/

/-- C1: the record-collection invariant is preserved.  On every pool of positive
capacity whose record list satisfies the invariant, and for every positive size and
every address, `pool_alloc`, `pool_free` and `pool_realloc` return, and the pool
they leave satisfies the invariant again, with the same capacity, whether the call
succeeded or failed.  The pool made by `pool_create` satisfies the invariant, and so
does the pool after every finite sequence of allocate, free and resize calls with
positive sizes on it. -/
theorem record_invariant_preserved (p : pool) (hcap : 0 < p.maxsize) (hp : inv p)
    (size : Int) (hs : 0 < size) (addr : Option Int)
    (capacity : Int) (hc : 0 < capacity) (mem : Int → char)
    (calls : List call) (hcalls : ∀ c ∈ calls, c.pre) :
    (∃ p' res, pool_alloc p size = some (p', res) ∧ inv p' ∧ 0 < p'.maxsize) ∧
    (inv (pool_free p addr).1 ∧ 0 < (pool_free p addr).1.maxsize) ∧
    (∃ p' res, pool_realloc p addr size = some (p', res) ∧ inv p' ∧ 0 < p'.maxsize) ∧
    (∃ p0, pool_create capacity mem = some p0 ∧ inv p0 ∧ p0.maxsize = capacity ∧
      ∃ q, run p0 calls = some q ∧ inv q ∧ q.maxsize = capacity) := by
  refine ⟨?_, ⟨pool_free_inv hp addr, by rw [pool_free_maxsize]; exact hcap⟩, ?_, ?_⟩
  · obtain ⟨p', res, h1, h2, h3⟩ := pool_alloc_inv hp hs
    exact ⟨p', res, h1, h2, by omega⟩
  · obtain ⟨p', res, h1, h2, h3⟩ := pool_realloc_inv hp addr hs
    exact ⟨p', res, h1, h2, by omega⟩
  · have h0 : inv { root := [], maxsize := capacity, array := mem } :=
      (inv_iff _).2 (by simp [sorted_from])
    obtain ⟨q, h1, h2, h3⟩ := run_inv calls h0 hcalls
    exact ⟨_, by simp [pool_create, hc], h0, rfl, q, h1, h2, h3⟩

theorem record_invariant_preserved_witness :
    (0 < scenario_pool.maxsize ∧ inv scenario_pool ∧ (0 : Int) < 50 ∧ (0 : Int) < 100 ∧
      ∀ c ∈ [call.alloc 30, call.alloc 40, call.free (some 0), call.alloc 20,
        call.realloc (some 30) 50], c.pre) ∧
    ((∃ p' res, pool_alloc scenario_pool 50 = some (p', res) ∧ inv p' ∧ 0 < p'.maxsize) ∧
     (inv (pool_free scenario_pool (some 30)).1 ∧
       0 < (pool_free scenario_pool (some 30)).1.maxsize) ∧
     (∃ p' res, pool_realloc scenario_pool (some 30) 50 = some (p', res) ∧ inv p' ∧
       0 < p'.maxsize) ∧
     (∃ p0, pool_create 100 ramp = some p0 ∧ inv p0 ∧ p0.maxsize = 100 ∧
       ∃ q, run p0 [call.alloc 30, call.alloc 40, call.free (some 0), call.alloc 20,
         call.realloc (some 30) 50] = some q ∧ inv q ∧ q.maxsize = 100)) :=
  ⟨by decide,
    record_invariant_preserved scenario_pool (by decide) (by decide) 50 (by decide) (some 30)
      100 (by decide) ramp _ (by decide)⟩

/-- C2: first-fit placement.  On every pool satisfying the invariant and for every
positive size `pool_alloc` returns, and when it succeeds with offset `g`: `g` is the
start of a free gap (leading, inter-record, tail, or the whole pool when there are no
records) of length at least `size`; no gap starting below `g` has length at least
`size`; the new record list is the old one with the single record `[g, g + size)`
inserted between the records that end at or below `g` and those that start at or
above `g + size`, all other records unchanged; capacity and buffer are unchanged. -/
theorem first_fit_placement (p : pool) (size : Int) (hp : inv p) (hs : 0 < size) :
    ∃ p' res, pool_alloc p size = some (p', res) ∧
      ∀ g, res = some g →
        (∃ hi, (g, hi) ∈ gaps p ∧ hi - g ≥ size) ∧
        (∀ gap ∈ gaps p, gap.1 < g → gap.2 - gap.1 < size) ∧
        (∃ pre post, p.root = pre ++ post ∧
          p'.root = pre ++ { start := g, «end» := g + size } :: post ∧
          (∀ n ∈ pre, n.«end» ≤ g) ∧ (∀ n ∈ post, g + size ≤ n.start)) ∧
        p'.maxsize = p.maxsize ∧ p'.array = p.array := by
  refine ⟨(alloc_body p size).1, (alloc_body p size).2, by simp [pool_alloc, hs], ?_⟩
  rw [alloc_body_eq]
  rw [inv_iff] at hp
  cases ha : alloc_scan p.maxsize size 0 p.root with
  | none => intro g hg; simp at hg
  | some x =>
    obtain ⟨l, a⟩ := x
    intro g hg
    simp only [Option.some.injEq] at hg
    subst hg
    obtain ⟨-, h1, h2, h3, -⟩ := alloc_scan_some hs hp ha
    exact ⟨h1, h2, h3, rfl, rfl⟩

theorem first_fit_placement_witness :
    (inv scenario_pool ∧ (0 : Int) < 10) ∧
    ∃ p' res, pool_alloc scenario_pool 10 = some (p', res) ∧
      ∀ g, res = some g →
        (∃ hi, (g, hi) ∈ gaps scenario_pool ∧ hi - g ≥ 10) ∧
        (∀ gap ∈ gaps scenario_pool, gap.1 < g → gap.2 - gap.1 < 10) ∧
        (∃ pre post, scenario_pool.root = pre ++ post ∧
          p'.root = pre ++ { start := g, «end» := g + 10 } :: post ∧
          (∀ n ∈ pre, n.«end» ≤ g) ∧ (∀ n ∈ post, g + 10 ≤ n.start)) ∧
        p'.maxsize = scenario_pool.maxsize ∧ p'.array = scenario_pool.array :=
  ⟨by decide, first_fit_placement scenario_pool 10 (by decide) (by decide)⟩

/-- C3: allocation fails exactly when nothing fits.  On every pool (so on every pool
satisfying the invariant) and for every positive size `pool_alloc` returns, its result
is the failure indicator `NULL` if and only if every free gap (leading, inter-record,
tail, or the whole pool when there are no records) is shorter than `size`, and when it
fails the pool (record list, capacity and buffer) is unchanged. -/
theorem alloc_fails_iff_nothing_fits (p : pool) (size : Int) (hs : 0 < size) :
    ∃ p' res, pool_alloc p size = some (p', res) ∧
      (res = none ↔ ∀ gap ∈ gaps p, gap.2 - gap.1 < size) ∧
      (res = none → p' = p) := by
  refine ⟨(alloc_body p size).1, (alloc_body p size).2, by simp [pool_alloc, hs], ?_⟩
  rw [alloc_body_eq, gaps, ← alloc_scan_none_iff]
  cases alloc_scan p.maxsize size 0 p.root with
  | none => simp
  | some x => simp

theorem alloc_fails_iff_nothing_fits_witness :
    (0 : Int) < 31 ∧
    ∃ p' res, pool_alloc scenario_pool 31 = some (p', res) ∧
      (res = none ↔ ∀ gap ∈ gaps scenario_pool, gap.2 - gap.1 < 31) ∧
      (res = none → p' = scenario_pool) :=
  ⟨by decide, alloc_fails_iff_nothing_fits scenario_pool 31 (by decide)⟩

/-- C4: resize failure is atomic.  On every pool satisfying the invariant, for every
address and every positive new size, `pool_realloc` returns, and when it returns the
failure indicator the pool after the call is the pool before it (record list, capacity
and buffer, so the original record keeps its start and end); the failure has one of
two causes: no record starts exactly at the address, or a record does, none of the
in-place cases applies to it and `pool_alloc` for the new size fails on the pool. -/
theorem resize_failure_atomic (p : pool) (addr : Option Int) (new_size : Int)
    (hp : inv p) (hs : 0 < new_size) :
    ∃ p' res, pool_realloc p addr new_size = some (p', res) ∧
      (res = none →
        p' = p ∧
        ((∀ n ∈ p.root, some n.start ≠ addr) ∨
         (∃ pre r post, p.root = pre ++ r :: post ∧ some r.start = addr ∧
            in_place p.maxsize new_size r post = false ∧
            pool_alloc p new_size = some (p, none)))) := by
  unfold pool_realloc
  rw [if_pos hs]
  rcases realloc_scan_cases p addr new_size [] p.root with ⟨h0, h⟩ | ⟨l1, r, l2, h1, -, h3, h4⟩
  · exact ⟨p, none, h, fun _ => ⟨rfl, Or.inl h0⟩⟩
  · rw [h4, List.nil_append]
    subst h3
    cases hip : in_place p.maxsize new_size r l2 with
    | true =>
      rw [realloc_at_in_place _ hip]
      exact ⟨_, _, rfl, fun h => by simp at h⟩
    | false =>
      cases ha : alloc_scan p.maxsize new_size 0 p.root with
      | none =>
        rw [realloc_at_fail _ hs hip ha]
        refine ⟨p, none, rfl, fun _ => ⟨rfl, Or.inr ⟨l1, r, l2, h1, rfl, hip, ?_⟩⟩⟩
        simp [pool_alloc, hs, alloc_body_eq, ha]
      | some x =>
        obtain ⟨l, a⟩ := x
        rw [realloc_at_move hs hp h1 hip ha]
        exact ⟨_, _, rfl, fun h => by simp at h⟩

theorem resize_failure_atomic_witness :
    (inv scenario_pool ∧ (0 : Int) < 71) ∧
    ∃ p' res, pool_realloc scenario_pool (some 30) 71 = some (p', res) ∧
      (res = none →
        p' = scenario_pool ∧
        ((∀ n ∈ scenario_pool.root, some n.start ≠ some 30) ∨
         (∃ pre r post, scenario_pool.root = pre ++ r :: post ∧ some r.start = some 30 ∧
            in_place scenario_pool.maxsize 71 r post = false ∧
            pool_alloc scenario_pool 71 = some (scenario_pool, none)))) :=
  ⟨by decide, resize_failure_atomic scenario_pool (some 30) 71 (by decide) (by decide)⟩

/-- C5: free fails without mutation on a bad address.  For every pool and every
address `pool_free` returns true if and only if the address is non-null and some
record starts at it; whenever it returns false the pool is unchanged; and it returns
false, leaving the pool unchanged, when the address is null, when the pool has no
records, and when no record starts at the address. -/
theorem free_fails_without_mutation (p : pool) (addr : Option Int) :
    ((pool_free p addr).2 = true ↔ ∃ a, addr = some a ∧ ∃ n ∈ p.root, n.start = a) ∧
    ((pool_free p addr).2 = false → (pool_free p addr).1 = p) ∧
    (addr = none ∨ p.root = [] ∨ (∀ n ∈ p.root, some n.start ≠ addr) →
      pool_free p addr = (p, false)) := by
  cases addr with
  | none => simp [pool_free]
  | some a =>
    rw [pool_free_eq]
    cases hf : free_scan a p.root with
    | none =>
      have h := (free_scan_none_iff a p.root).1 hf
      refine ⟨by simpa using h, fun _ => rfl, fun _ => rfl⟩
    | some l =>
      obtain ⟨pre, r, post, h1, -, h3, -⟩ := free_scan_some hf
      have hmem : r ∈ p.root := by rw [h1]; simp
      refine ⟨by simpa using ⟨r, hmem, h3⟩, by simp, ?_⟩
      rintro (h | h | h)
      · simp at h
      · rw [h] at hmem; simp at hmem
      · exact absurd (congrArg some h3) (h r hmem)

/-- C6: a successful free removes exactly one record.  On every pool satisfying the
invariant and for the start address of every record `r` of the pool, `pool_free`
returns true and leaves the old record list with `r` removed (the list splits as
`pre`, `r`, `post` and becomes `pre` followed by `post`, neither containing `r`), so
every other record keeps its start, its end and its place; capacity and buffer are
unchanged. -/
theorem free_removes_exactly_one (p : pool) (r : node) (hp : inv p) (hr : r ∈ p.root) :
    ∃ pre post, p.root = pre ++ r :: post ∧ r ∉ pre ∧ r ∉ post ∧
      pool_free p (some r.start) = ({ p with root := pre ++ post }, true) ∧
      pre ++ post = p.root.erase r := by
  obtain ⟨pre, post, h⟩ := List.append_of_mem hr
  rw [inv_iff, h] at hp
  obtain ⟨h1, -, h3, h4⟩ := sorted_from_starts_ne hp
  refine ⟨pre, post, h, h3, h4, ?_, by rw [h, erase_split h3]⟩
  rw [pool_free_eq, h, free_scan_split h1 rfl]

theorem free_removes_exactly_one_witness :
    (inv scenario_pool ∧ ({ start := 30, «end» := 70 } : node) ∈ scenario_pool.root) ∧
    ∃ pre post, scenario_pool.root = pre ++ { start := 30, «end» := 70 } :: post ∧
      ({ start := 30, «end» := 70 } : node) ∉ pre ∧
      ({ start := 30, «end» := 70 } : node) ∉ post ∧
      pool_free scenario_pool (some 30) = ({ scenario_pool with root := pre ++ post }, true) ∧
      pre ++ post = scenario_pool.root.erase { start := 30, «end» := 70 } :=
  ⟨by decide,
    free_removes_exactly_one scenario_pool { start := 30, «end» := 70 } (by decide)
      (by decide)⟩

/-- C7: shrinking never moves.  On every pool satisfying the invariant, for every
record `r` of the pool and every new size with `0 < new_size ≤ r.end - r.start`,
`pool_realloc` at the address of `r` succeeds and returns that same address;
afterwards `r` is `[r.start, r.start + new_size)` and every other record, the capacity
and the buffer are unchanged. -/
theorem shrink_never_moves (p : pool) (r : node) (new_size : Int) (hp : inv p)
    (hr : r ∈ p.root) (hs : 0 < new_size) (hle : new_size ≤ r.«end» - r.start) :
    ∃ pre post, p.root = pre ++ r :: post ∧
      pool_realloc p (some r.start) new_size =
        some ({ p with root := pre ++ { start := r.start, «end» := r.start + new_size } :: post },
          some r.start) := by
  obtain ⟨pre, post, h⟩ := List.append_of_mem hr
  refine ⟨pre, post, h, ?_⟩
  rw [pool_realloc_at hs hp h, realloc_at_in_place]
  exact (in_place_iff _ _ _ _).2 (Or.inl hle)

theorem shrink_never_moves_witness :
    (inv scenario_pool ∧ ({ start := 30, «end» := 70 } : node) ∈ scenario_pool.root ∧
      (0 : Int) < 15 ∧ (15 : Int) ≤ 70 - 30) ∧
    ∃ pre post, scenario_pool.root = pre ++ { start := 30, «end» := 70 } :: post ∧
      pool_realloc scenario_pool (some 30) 15 =
        some ({ scenario_pool with root := pre ++ { start := 30, «end» := 30 + 15 } :: post },
          some 30) :=
  ⟨by decide,
    shrink_never_moves scenario_pool { start := 30, «end» := 70 } 15 (by decide) (by decide)
      (by decide) (by decide)⟩

/-- C8: in-place growth.  On every pool satisfying the invariant whose record list is
`pre`, then the record `r`, then `post`: if `new_size` exceeds the old size of `r` and
either `r` has a following record `n` with `new_size ≤ n.start - r.start`, or `r` is
the last record and `new_size ≤ capacity - r.start`, then `pool_realloc` at the
address of `r` returns that same address and changes only the end of `r`, to
`r.start + new_size`; every other record (the neighbour `n` among them), the capacity
and the buffer are unchanged. -/
theorem grow_in_place (p : pool) (pre : List node) (r : node) (post : List node)
    (new_size : Int) (hp : inv p) (hr : p.root = pre ++ r :: post)
    (hgrow : new_size > r.«end» - r.start)
    (hcase : (∃ n post', post = n :: post' ∧ new_size ≤ n.start - r.start) ∨
      (post = [] ∧ new_size ≤ p.maxsize - r.start)) :
    pool_realloc p (some r.start) new_size =
      some ({ p with root := pre ++ { start := r.start, «end» := r.start + new_size } :: post },
        some r.start) := by
  have hpos : 0 < new_size := by
    rw [inv_iff, hr] at hp
    have := (sorted_from_split hp).2.2.1
    omega
  rw [pool_realloc_at hpos hp hr, realloc_at_in_place]
  exact (in_place_iff _ _ _ _).2 (Or.inr hcase)

theorem grow_in_place_witness :
    (inv scenario_pool ∧
      scenario_pool.root = [] ++ { start := 0, «end» := 20 } :: [{ start := 30, «end» := 70 }] ∧
      (30 : Int) > 20 - 0 ∧ (30 : Int) ≤ 30 - 0) ∧
    pool_realloc scenario_pool (some 0) 30 =
      some ({ scenario_pool with
              root := [] ++ { start := 0, «end» := 0 + 30 } :: [{ start := 30, «end» := 70 }] },
        some 0) :=
  ⟨by decide,
    grow_in_place scenario_pool [] { start := 0, «end» := 20 } [{ start := 30, «end» := 70 }] 30
      (by decide) (by decide) (by decide) (Or.inl ⟨_, _, rfl, by decide⟩)⟩

/-- C9: the move branch of resize.  On every pool satisfying the invariant whose
record list is `pre`, then the record `r`, then `post`, and for every new size to
which none of the three in-place cases applies, `pool_realloc` at the address of `r`
returns exactly what `pool_alloc` for the new size returns on the pool as it stands,
with `r` still in it.  When that allocation succeeds with address `a`, `a` differs
from the address of `r` and the new record list is the old list without `r` and with
`[a, a + new_size)` inserted at its sorted place, all other records unchanged; it is
the list `pool_alloc` leaves with `r` erased.  The capacity is unchanged. -/
theorem resize_move_branch (p : pool) (pre : List node) (r : node) (post : List node)
    (new_size : Int) (hp : inv p) (hr : p.root = pre ++ r :: post)
    (hno : ¬ (new_size ≤ r.«end» - r.start ∨
      (∃ n post', post = n :: post' ∧ new_size ≤ n.start - r.start) ∨
      (post = [] ∧ new_size ≤ p.maxsize - r.start))) :
    ∃ p1 res p', pool_alloc p new_size = some (p1, res) ∧
      pool_realloc p (some r.start) new_size = some (p', res) ∧
      p'.maxsize = p.maxsize ∧
      ∀ a, res = some a →
        a ≠ r.start ∧ p'.root = p1.root.erase r ∧
        ∃ l1 l2, pre ++ post = l1 ++ l2 ∧
          p'.root = l1 ++ { start := a, «end» := a + new_size } :: l2 ∧
          (∀ n ∈ l1, n.«end» ≤ a) ∧ (∀ n ∈ l2, a + new_size ≤ n.start) := by
  obtain ⟨hs, -, hip⟩ := not_in_place hp hr hno
  have hmem : r ∈ p.root := by rw [hr]; simp
  rw [pool_realloc_at hs hp hr]
  have halloc : pool_alloc p new_size = some (alloc_body p new_size) := by
    simp [pool_alloc, hs]
  rw [halloc, alloc_body_eq]
  cases ha : alloc_scan p.maxsize new_size 0 p.root with
  | none =>
    rw [realloc_at_fail _ hs hip ha]
    exact ⟨p, none, p, rfl, rfl, rfl, fun a h => by simp at h⟩
  | some x =>
    obtain ⟨l, a⟩ := x
    rw [realloc_at_move hs hp hr hip ha]
    refine ⟨_, _, _, rfl, rfl, rfl, ?_⟩
    intro b hb
    simp only [Option.some.injEq] at hb
    subst hb
    have hapart := alloc_scan_apart hs hp hmem ha
    have hp' := hp
    rw [inv_iff] at hp'
    obtain ⟨-, -, -, ⟨l1, l2, h1, h2, h3, h4⟩, -⟩ := alloc_scan_some hs hp' ha
    have hrlt : r.start < r.«end» := (sorted_from_mem hp' r hmem).2.1
    have hne : a ≠ r.start := by omega
    have hnew : ¬ ((new_node a new_size == r) = true) := by
      simp only [beq_iff_eq]
      intro h
      exact hne (by rw [← h]; rfl)
    have hpre : r ∉ pre := by
      rw [hr] at hp'
      exact (sorted_from_starts_ne hp').2.2.1
    have herase : pre ++ post = (l1 ++ l2).erase r := by
      rw [← h1, hr, erase_split hpre]
    refine ⟨hne, rfl, ?_⟩
    by_cases hl1 : r ∈ l1
    · refine ⟨l1.erase r, l2, ?_, ?_, fun n hn => h3 n (List.mem_of_mem_erase hn), h4⟩
      · rw [herase, List.erase_append_left _ hl1]
      · simp only [h2]
        rw [List.erase_append_left _ hl1]
        rfl
    · refine ⟨l1, l2.erase r, ?_, ?_, h3, fun n hn => h4 n (List.mem_of_mem_erase hn)⟩
      · rw [herase, List.erase_append_right _ hl1]
      · simp only [h2]
        rw [List.erase_append_right _ hl1, List.erase_cons_tail hnew]
        rfl

theorem resize_move_branch_witness :
    (inv roomy_pool ∧
      roomy_pool.root = [] ++ { start := 0, «end» := 20 } :: [{ start := 30, «end» := 70 }] ∧
      ¬ ((31 : Int) ≤ 20 - 0 ∨
        (∃ n post', [({ start := 30, «end» := 70 } : node)] = n :: post' ∧
          (31 : Int) ≤ n.start - 0) ∨
        ([({ start := 30, «end» := 70 } : node)] = [] ∧ (31 : Int) ≤ 200 - 0))) ∧
    ∃ p1 res p', pool_alloc roomy_pool 31 = some (p1, res) ∧
      pool_realloc roomy_pool (some 0) 31 = some (p', res) ∧
      p'.maxsize = 200 ∧
      ∀ a, res = some a →
        a ≠ 0 ∧ p'.root = p1.root.erase { start := 0, «end» := 20 } ∧
        ∃ l1 l2, [] ++ [({ start := 30, «end» := 70 } : node)] = l1 ++ l2 ∧
          p'.root = l1 ++ { start := a, «end» := a + 31 } :: l2 ∧
          (∀ n ∈ l1, n.«end» ≤ a) ∧ (∀ n ∈ l2, a + 31 ≤ n.start) :=
  ⟨⟨by decide, by decide, by simp⟩,
    resize_move_branch roomy_pool [] { start := 0, «end» := 20 }
      [{ start := 30, «end» := 70 }] 31 (by decide) (by decide) (by simp)⟩

/-- C10: content is preserved by a moving resize.  On every pool satisfying the
invariant, whatever its buffer holds, whose record list is `pre`, then the record
`r = [s, e)`, then `post`, and for every new size that cannot be served in place,
`pool_realloc` at the address of `r` returns, and either it returns a new address `a`
other than `s` such that for every `i` with `0 ≤ i < e - s` the byte at `a + i` after
the call is the byte at `s + i` before it, or it fails and the pool, with the record
`r` and the buffer, is unchanged. -/
theorem resize_move_preserves_content (p : pool) (pre : List node) (r : node)
    (post : List node) (new_size : Int) (hp : inv p) (hr : p.root = pre ++ r :: post)
    (hno : ¬ (new_size ≤ r.«end» - r.start ∨
      (∃ n post', post = n :: post' ∧ new_size ≤ n.start - r.start) ∨
      (post = [] ∧ new_size ≤ p.maxsize - r.start))) :
    ∃ p' res, pool_realloc p (some r.start) new_size = some (p', res) ∧
      ((∃ a, res = some a ∧ a ≠ r.start ∧
          ∀ i, 0 ≤ i → i < r.«end» - r.start → p'.array (a + i) = p.array (r.start + i)) ∨
       (res = none ∧ p' = p)) := by
  obtain ⟨hs, hlt, hip⟩ := not_in_place hp hr hno
  have hmem : r ∈ p.root := by rw [hr]; simp
  rw [pool_realloc_at hs hp hr]
  cases ha : alloc_scan p.maxsize new_size 0 p.root with
  | none =>
    rw [realloc_at_fail _ hs hip ha]
    exact ⟨p, none, rfl, Or.inr ⟨rfl, rfl⟩⟩
  | some x =>
    obtain ⟨l, a⟩ := x
    rw [realloc_at_move hs hp hr hip ha]
    have hapart := alloc_scan_apart hs hp hmem ha
    have hrlt : r.start < r.«end» := by
      rw [inv_iff] at hp
      exact (sorted_from_mem hp r hmem).2.1
    refine ⟨_, _, rfl, Or.inl ⟨a, rfl, by omega, ?_⟩⟩
    intro i h0 h1
    have hk : ((r.«end» - r.start).toNat : Int) = r.«end» - r.start :=
      Int.toNat_of_nonneg (by omega)
    have hi : ((i.toNat : Nat) : Int) = i := Int.toNat_of_nonneg h0
    have := memcpy_inside p.array a r.start (r.«end» - r.start).toNat (by omega) i.toNat
      (by omega)
    rw [hi] at this
    exact this

theorem resize_move_preserves_content_witness :
    (inv roomy_pool ∧
      roomy_pool.root = [] ++ { start := 0, «end» := 20 } :: [{ start := 30, «end» := 70 }] ∧
      ¬ ((31 : Int) ≤ 20 - 0 ∨
        (∃ n post', [({ start := 30, «end» := 70 } : node)] = n :: post' ∧
          (31 : Int) ≤ n.start - 0) ∨
        ([({ start := 30, «end» := 70 } : node)] = [] ∧ (31 : Int) ≤ 200 - 0))) ∧
    ∃ p' res, pool_realloc roomy_pool (some 0) 31 = some (p', res) ∧
      ((∃ a, res = some a ∧ a ≠ 0 ∧
          ∀ i, 0 ≤ i → i < 20 - 0 → p'.array (a + i) = roomy_pool.array (0 + i)) ∨
       (res = none ∧ p' = roomy_pool)) :=
  ⟨⟨by decide, by decide, by simp⟩,
    resize_move_preserves_content roomy_pool [] { start := 0, «end» := 20 }
      [{ start := 30, «end» := 70 }] 31 (by decide) (by decide) (by simp)⟩

/-- C11: destroy is blocked by outstanding allocations.  For every pool
`pool_destroy` returns false if and only if the record list is non-empty; in that case
the pool that is left is the pool before the call (record list, capacity and buffer),
so every later call on it behaves as if destroy had not been called; on a pool with
an empty record list `pool_destroy` returns true and releases the pool. -/
theorem destroy_blocked_by_allocations (p : pool) :
    ((pool_destroy p).2 = false ↔ p.root ≠ []) ∧
    (p.root ≠ [] → pool_destroy p = (some p, false)) ∧
    (p.root = [] → pool_destroy p = (none, true)) := by
  unfold pool_destroy
  cases h : p.root with
  | nil => simp
  | cons n rest => simp

/-- C12, the code at the failing inputs: the available report puts no comma before
the entry of the trailing gap.  For capacity 100 with the single record `[30, 70)`
`pool_print_available` writes `available: 0 [30] 70 [30]`, not the listing
`0 [30], 70 [30]` of the claim, and with the records `[0, 20)`, `[30, 70)` it writes
`available: 20 [10] 70 [30]`, not `20 [10], 70 [30]`; the gaps found by the loop are
separated by commas, as in `available: 0 [10], 20 [10]` for capacity 100 with the
records `[10, 20)`, `[30, 100)`. -/
theorem available_report_tail_without_comma :
    pool_print_available single_pool = "available: 0 [30] 70 [30]\n" ∧
    pool_print_available single_pool ≠ "available: 0 [30], 70 [30]\n" ∧
    pool_print_available scenario_pool = "available: 20 [10] 70 [30]\n" ∧
    pool_print_available scenario_pool ≠ "available: 20 [10], 70 [30]\n" ∧
    pool_print_available
        { root := [{ start := 10, «end» := 20 }, { start := 30, «end» := 100 }],
          maxsize := 100, array := ramp } = "available: 0 [10], 20 [10]\n" := by
  decide

/-- C13: the active report format.  For every pool the text of `pool_print_active`
is the label `active:` followed by the records in list order, each rendered as
`start [size]` after a blank with `size = end - start`, consecutive entries separated
by a comma, and ended by a newline; with no records the text is the label followed by
the marker `none`.  For the records `[0, 30)`, `[30, 70)` the text is
`active: 0 [30], 30 [40]`. -/
theorem active_report_format (p : pool) :
    pool_print_active p =
      "active:" ++
        (if p.root = [] then " none"
         else comma_separated
           (p.root.map fun n =>
             " " ++ toString n.start ++ " " ++ "[" ++ toString (n.«end» - n.start) ++ "]")) ++
        "\n" ∧
    (p.root = [] → pool_print_active p = "active: none\n") ∧
    (∀ capacity mem,
      pool_print_active
          { root := [{ start := 0, «end» := 30 }, { start := 30, «end» := 70 }],
            maxsize := capacity, array := mem } = "active: 0 [30], 30 [40]\n") := by
  refine ⟨?_, ?_, ?_⟩
  · rw [pool_print_active_eq]
    simp [active_listed, entry_text, print_entry, Function.comp_def]
  · intro h
    simp [pool_print_active, h]
  · intro capacity mem
    rfl

/-- C14: the capacity boundary.  For every capacity `c > 0` and every initial buffer
content, `pool_create` makes an empty pool of capacity `c`; on it `pool_alloc` of `c`
bytes succeeds at offset 0 and leaves the single record `[0, c)`, and `pool_alloc` of
`c + 1` bytes fails and leaves the pool, with its empty record list, unchanged. -/
theorem capacity_boundary (c : Int) (mem : Int → char) (hc : 0 < c) :
    ∃ p0, pool_create c mem = some p0 ∧ p0.root = [] ∧ p0.maxsize = c ∧
      pool_alloc p0 c = some ({ p0 with root := [{ start := 0, «end» := c }] }, some 0) ∧
      pool_alloc p0 (c + 1) = some (p0, none) := by
  refine ⟨{ root := [], maxsize := c, array := mem }, by simp [pool_create, hc], rfl, rfl, ?_, ?_⟩
  · simp [pool_alloc, hc, alloc_body, new_node]
  · have h1 : 0 < c + 1 := by omega
    simp [pool_alloc, h1, alloc_body]

theorem capacity_boundary_witness :
    (0 : Int) < 100 ∧
    ∃ p0, pool_create 100 ramp = some p0 ∧ p0.root = [] ∧ p0.maxsize = 100 ∧
      pool_alloc p0 100 = some ({ p0 with root := [{ start := 0, «end» := 100 }] }, some 0) ∧
      pool_alloc p0 (100 + 1) = some (p0, none) :=
  ⟨by decide, capacity_boundary 100 ramp (by decide)⟩

/-- C15: the concrete scenario, steps 1 to 3.  From `pool_create(100)`, whatever the
buffer holds: allocate(30) returns offset 0 and allocate(40) returns offset 30,
leaving the records `[0, 30)`, `[30, 70)`; free(0) returns true, leaving the single
record `[30, 70)`; allocate(20) returns offset 0, the leading gap and not the tail gap
at 70, leaving the records `[0, 20)`, `[30, 70)`. -/
theorem scenario_steps_1_to_3 (mem : Int → char) :
    ∃ p0 p1 p2 p3 p4,
      pool_create 100 mem = some p0 ∧
      pool_alloc p0 30 = some (p1, some 0) ∧
      pool_alloc p1 40 = some (p2, some 30) ∧
      p2.root = [{ start := 0, «end» := 30 }, { start := 30, «end» := 70 }] ∧
      pool_free p2 (some 0) = (p3, true) ∧
      p3.root = [{ start := 30, «end» := 70 }] ∧
      pool_alloc p3 20 = some (p4, some 0) ∧
      p4.root = [{ start := 0, «end» := 20 }, { start := 30, «end» := 70 }] ∧
      p4.maxsize = 100 ∧ p4.array = mem :=
  ⟨_, _, _, _, _, rfl, rfl, rfl, rfl, rfl, rfl, rfl, rfl, rfl, rfl⟩

/-- C16: interior addresses are not handles.  On every pool satisfying the invariant
and for every address `a` strictly inside the range of a record `r` of the pool
(`r.start < a < r.end`), `pool_free` at `a` returns false and `pool_realloc` at `a`
fails for every positive size, and both leave the pool, with its record list,
unchanged. -/
theorem interior_addresses_not_handles (p : pool) (r : node) (a : Int) (hp : inv p)
    (hr : r ∈ p.root) (h1 : r.start < a) (h2 : a < r.«end») :
    pool_free p (some a) = (p, false) ∧
    ∀ n, 0 < n → pool_realloc p (some a) n = some (p, none) := by
  rw [inv_iff] at hp
  have hne := no_start_inside hp hr h1 h2
  constructor
  · rw [pool_free_eq, (free_scan_none_iff a p.root).2 hne]
  · intro n hn
    unfold pool_realloc
    rw [if_pos hn]
    exact realloc_scan_no_match p _ n [] p.root (fun m hm h => hne m hm (Option.some.inj h))

theorem interior_addresses_not_handles_witness :
    (inv scenario_pool ∧ ({ start := 30, «end» := 70 } : node) ∈ scenario_pool.root ∧
      (30 : Int) < 45 ∧ (45 : Int) < 70) ∧
    (pool_free scenario_pool (some 45) = (scenario_pool, false) ∧
     ∀ n, 0 < n → pool_realloc scenario_pool (some 45) n = some (scenario_pool, none)) :=
  ⟨by decide,
    interior_addresses_not_handles scenario_pool { start := 30, «end» := 70 } 45 (by decide)
      (by decide) (by decide) (by decide)⟩

/-- C17: a moving resize never reuses the old record's own range.  On every pool
satisfying the invariant whose record list is `pre`, then the record `r = [s, e)`,
then `post`, and for every new size to which no in-place case applies, `pool_realloc`
at the address of `r` returns, and when it succeeds with address `a` the destination
`[a, a + new_size)` is disjoint from `[s, e)`, so the `e - s` bytes copied have
disjoint source and destination.  This can make the resize fail though the request
would fit once `r` is freed: on capacity 30 with the single record `[10, 20)` the
resize to 25 fails and leaves the pool unchanged, while after freeing the record an
allocation of 25 succeeds at offset 0. -/
theorem move_never_reuses_own_range (p : pool) (pre : List node) (r : node)
    (post : List node) (new_size : Int) (hp : inv p) (hr : p.root = pre ++ r :: post)
    (hno : ¬ (new_size ≤ r.«end» - r.start ∨
      (∃ n post', post = n :: post' ∧ new_size ≤ n.start - r.start) ∨
      (post = [] ∧ new_size ≤ p.maxsize - r.start))) :
    (∃ p' res, pool_realloc p (some r.start) new_size = some (p', res) ∧
      ∀ a, res = some a →
        (r.«end» ≤ a ∨ a + new_size ≤ r.start) ∧
        (r.start + (r.«end» - r.start) ≤ a ∨ a + (r.«end» - r.start) ≤ r.start)) ∧
    (inv tight_pool ∧
      pool_realloc tight_pool (some 10) 25 = some (tight_pool, none) ∧
      (pool_free tight_pool (some 10)).2 = true ∧
      ∃ q, pool_alloc (pool_free tight_pool (some 10)).1 25 = some (q, some 0)) := by
  refine ⟨?_, by decide, rfl, rfl, _, rfl⟩
  obtain ⟨hs, hlt, hip⟩ := not_in_place hp hr hno
  have hmem : r ∈ p.root := by rw [hr]; simp
  rw [pool_realloc_at hs hp hr]
  cases ha : alloc_scan p.maxsize new_size 0 p.root with
  | none =>
    rw [realloc_at_fail _ hs hip ha]
    exact ⟨p, none, rfl, fun a h => by simp at h⟩
  | some x =>
    obtain ⟨l, a⟩ := x
    rw [realloc_at_move hs hp hr hip ha]
    have hapart := alloc_scan_apart hs hp hmem ha
    refine ⟨_, _, rfl, ?_⟩
    intro b hb
    simp only [Option.some.injEq] at hb
    subst hb
    exact ⟨hapart, by omega⟩

theorem move_never_reuses_own_range_witness :
    (inv roomy_pool ∧
      roomy_pool.root = [] ++ { start := 0, «end» := 20 } :: [{ start := 30, «end» := 70 }] ∧
      ¬ ((31 : Int) ≤ 20 - 0 ∨
        (∃ n post', [({ start := 30, «end» := 70 } : node)] = n :: post' ∧
          (31 : Int) ≤ n.start - 0) ∨
        ([({ start := 30, «end» := 70 } : node)] = [] ∧ (31 : Int) ≤ 200 - 0))) ∧
    ((∃ p' res, pool_realloc roomy_pool (some 0) 31 = some (p', res) ∧
      ∀ a, res = some a →
        ((20 : Int) ≤ a ∨ a + 31 ≤ 0) ∧ ((0 : Int) + (20 - 0) ≤ a ∨ a + (20 - 0) ≤ 0)) ∧
    (inv tight_pool ∧
      pool_realloc tight_pool (some 10) 25 = some (tight_pool, none) ∧
      (pool_free tight_pool (some 10)).2 = true ∧
      ∃ q, pool_alloc (pool_free tight_pool (some 10)).1 25 = some (q, some 0))) :=
  ⟨⟨by decide, by decide, by simp⟩,
    move_never_reuses_own_range roomy_pool [] { start := 0, «end» := 20 }
      [{ start := 30, «end» := 70 }] 31 (by decide) (by decide) (by simp)⟩

/-- C18, as the code has it: on the pool of capacity 100 with the records `[0, 20)`,
`[30, 70)`, whatever the buffer holds, resize(30, 50) is served in place: `[30, 70)`
is the last record and `50 ≤ 100 - 30`, so the call returns the same address 30, the
record becomes `[30, 80)` and the record `[0, 20)`, the capacity and the buffer are
unchanged. -/
theorem resize_step4_in_place (mem : Int → char) :
    pool_realloc
        { root := [{ start := 0, «end» := 20 }, { start := 30, «end» := 70 }],
          maxsize := 100, array := mem } (some 30) 50 =
      some ({ root := [{ start := 0, «end» := 20 }, { start := 30, «end» := 80 }],
              maxsize := 100, array := mem }, some 30) := by
  rfl

/-- C18, the claim as stated fails: on the pool of capacity 100 with the records
`[0, 20)`, `[30, 70)` the call resize(30, 50) returns neither the failure indicator
nor an address other than 30; it returns the address 30. -/
theorem resize_step4_counterexample :
    ¬ (∀ p' res, pool_realloc scenario_pool (some 30) 50 = some (p', res) →
        res = none ∨ ∃ a, res = some a ∧ a ≠ 30) ∧
    (pool_realloc scenario_pool (some 30) 50).map Prod.snd = some (some 30) := by
  refine ⟨?_, by decide⟩
  intro h
  have := h _ _ (rfl : pool_realloc scenario_pool (some 30) 50 =
    some ({ scenario_pool with
            root := [{ start := 0, «end» := 20 }, { start := 30, «end» := 80 }] }, some 30))
  simp at this

/-- C19: allocate then free is a round trip.  On every pool satisfying the invariant
and for every positive size `pool_alloc` returns, and when it succeeds with address
`a` the new record is the only record of the resulting pool that starts at `a`, and
`pool_free` at `a` on the resulting pool returns true and gives back the pool before
the allocation, with the same record list, capacity and buffer. -/
theorem alloc_then_free_round_trip (p : pool) (size : Int) (hp : inv p) (hs : 0 < size) :
    ∃ p1 res, pool_alloc p size = some (p1, res) ∧
      ∀ a, res = some a →
        (∀ n ∈ p1.root, n.start = a → n = { start := a, «end» := a + size }) ∧
        pool_free p1 (some a) = (p, true) := by
  refine ⟨(alloc_body p size).1, (alloc_body p size).2, by simp [pool_alloc, hs], ?_⟩
  rw [alloc_body_eq]
  rw [inv_iff] at hp
  cases ha : alloc_scan p.maxsize size 0 p.root with
  | none => intro a h; simp at h
  | some x =>
    obtain ⟨l, b⟩ := x
    intro a hb
    simp only [Option.some.injEq] at hb
    subst hb
    obtain ⟨-, -, -, ⟨pre, post, h1, h2, -, -⟩, hl⟩ := alloc_scan_some hs hp ha
    rw [h2] at hl
    obtain ⟨hpre, hpost, -, -⟩ := sorted_from_starts_ne hl
    constructor
    · intro n hn hna
      simp only [h2] at hn
      rcases List.mem_append.1 hn with h | h
      · exact absurd hna (hpre n h)
      · rcases List.mem_cons.1 h with rfl | h
        · rfl
        · exact absurd hna (hpost n h)
    · rw [pool_free_eq]
      simp only [h2]
      have hfree : free_scan b (pre ++ new_node b size :: post) = some (pre ++ post) :=
        free_scan_split hpre rfl
      rw [hfree]
      simp only [← h1]

theorem alloc_then_free_round_trip_witness :
    (inv scenario_pool ∧ (0 : Int) < 10) ∧
    ∃ p1 res, pool_alloc scenario_pool 10 = some (p1, res) ∧
      ∀ a, res = some a →
        (∀ n ∈ p1.root, n.start = a → n = { start := a, «end» := a + 10 }) ∧
        pool_free p1 (some a) = (scenario_pool, true) :=
  ⟨by decide, alloc_then_free_round_trip scenario_pool 10 (by decide) (by decide)⟩

/-- C20: the two reports partition the pool.  On every pool of positive capacity
satisfying the invariant, the sizes listed by the active report (`end - start` over
all records) and the sizes of the gaps listed by the available report (the entries
the scan of `pool_print_available` prints, which are the free gaps of positive size)
add up to the capacity; so the available report is the label with the marker `none`
if and only if the record sizes add up to the capacity. -/
theorem reports_partition_pool (p : pool) (hcap : 0 < p.maxsize) (hp : inv p) :
    (p.root.map fun n => n.«end» - n.start).sum +
        ((available_listed p).map Prod.snd).sum = p.maxsize ∧
    (pool_print_available p = "available: none\n" ↔
      (p.root.map fun n => n.«end» - n.start).sum = p.maxsize) ∧
    available_listed p = positive_gaps p ∧
    pool_print_available p =
      "available:" ++ comma_separated ((listed_loop 0 p.root).map entry_text) ++
        comma_separated ((listed_tail p).map entry_text) ++
        (if available_listed p = [] then " none" else "") ++ "\n" := by
  rw [inv_iff] at hp
  obtain ⟨h1, h2⟩ := scan_sum hp (le_of_lt hcap)
  have hsum : (p.root.map fun n => n.«end» - n.start).sum +
      ((available_listed p).map Prod.snd).sum = p.maxsize := by
    unfold available_listed listed_tail
    split
    · simp only [List.map_append, List.sum_append, List.map_cons, List.map_nil, List.sum_cons,
        List.sum_nil]
      omega
    · simp only [List.append_nil]
      omega
  refine ⟨hsum, ?_, available_listed_eq p, pool_print_available_eq p⟩
  rw [print_available_none_iff]
  constructor
  · intro h
    rw [h] at hsum
    simpa using hsum
  · intro h
    by_contra hne
    have := sum_pos_of_ne_nil (available_listed_pos p) hne
    omega

theorem reports_partition_pool_witness :
    (0 < scenario_pool.maxsize ∧ inv scenario_pool) ∧
    ((scenario_pool.root.map fun n => n.«end» - n.start).sum +
        ((available_listed scenario_pool).map Prod.snd).sum = scenario_pool.maxsize ∧
    (pool_print_available scenario_pool = "available: none\n" ↔
      (scenario_pool.root.map fun n => n.«end» - n.start).sum = scenario_pool.maxsize) ∧
    available_listed scenario_pool = positive_gaps scenario_pool ∧
    pool_print_available scenario_pool =
      "available:" ++ comma_separated ((listed_loop 0 scenario_pool.root).map entry_text) ++
        comma_separated ((listed_tail scenario_pool).map entry_text) ++
        (if available_listed scenario_pool = [] then " none" else "") ++ "\n") :=
  ⟨by decide, reports_partition_pool scenario_pool (by decide) (by decide)⟩

end PoolSim
